import Mathlib

/-!
# AccessAtlas: verification of the multimodal classifier pipeline

Shallow embedding of the AccessAtlas repository's training-pipeline core:
the fusion model's shape semantics (`src/models/baseline/model.py`), the
dataset adapter (`src/models/baseline/dataset.py`), the trainer's epoch
loop and checkpointing (`src/models/baseline/train.py`), and the data
preprocessor (`src/data/preprocess.py`).

Tensors are represented by their shapes where only shape contracts are at
stake; scalar data (coordinates, accuracies) is represented by rationals;
pandas DataFrames by lists of rows; the pseudo-random stream consumed by
`sklearn.model_selection.train_test_split` by explicit permutation-valued
parameters.
-/

namespace AccessAtlas

/-! ## Tensor shapes

`Shape4` is the shape of a rank-4 tensor `(batch, channels, height, width)`;
`Shape2` the shape of a rank-2 tensor `(batch, features)`.  Each layer of
`model.py` becomes a partial shape-transfer function: `none` models the
runtime error PyTorch raises on a shape mismatch. -/

structure Shape4 where
  batch : Nat
  channels : Nat
  height : Nat
  width : Nat
deriving DecidableEq, Repr

structure Shape2 where
  batch : Nat
  features : Nat
deriving DecidableEq, Repr

/-- Shape semantics of `nn.Conv2d(inC, outC, kernel_size=k, padding=p)`
(stride 1): spatial size `h ↦ h + 2p - k + 1`, defined when the padded
input is at least the kernel. -/
def conv2dShape (inC outC kernel padding : Nat) (s : Shape4) : Option Shape4 :=
  if s.channels = inC ∧ kernel ≤ s.height + 2 * padding ∧ kernel ≤ s.width + 2 * padding then
    some ⟨s.batch, outC, s.height + 2 * padding - kernel + 1, s.width + 2 * padding - kernel + 1⟩
  else none

/-- Shape semantics of `nn.MaxPool2d(kernel, stride)`:
`h ↦ (h - kernel) / stride + 1`, defined when `kernel ≤ h`. -/
def maxPool2dShape (kernel stride : Nat) (s : Shape4) : Option Shape4 :=
  if kernel ≤ s.height ∧ kernel ≤ s.width then
    some ⟨s.batch, s.channels, (s.height - kernel) / stride + 1, (s.width - kernel) / stride + 1⟩
  else none

/-- Shape semantics of `nn.BatchNorm2d(features)`: identity on shapes with
the channel count checked.  `ReLU` and `Dropout2d` are shape-identities and
are absorbed. -/
def batchNorm2dShape (features : Nat) (s : Shape4) : Option Shape4 :=
  if s.channels = features then some s else none

/-- Shape semantics of `nn.AdaptiveAvgPool2d((1, 1))`. -/
def adaptiveAvgPool2dShape (s : Shape4) : Option Shape4 :=
  if 1 ≤ s.height ∧ 1 ≤ s.width then some ⟨s.batch, s.channels, 1, 1⟩ else none

/-- Shape semantics of `x.view(x.size(0), -1)`. -/
def flattenShape (s : Shape4) : Shape2 :=
  ⟨s.batch, s.channels * s.height * s.width⟩

/-- Shape semantics of `nn.Linear(inF, outF)` on a rank-2 input. -/
def linearShape (inF outF : Nat) (s : Shape2) : Option Shape2 :=
  if s.features = inF then some ⟨s.batch, outF⟩ else none

/-- Shape semantics of `nn.BatchNorm1d(features)`; `ReLU` and `Dropout`
are shape-identities and are absorbed. -/
def batchNorm1dShape (features : Nat) (s : Shape2) : Option Shape2 :=
  if s.features = features then some s else none

/-- Shape semantics of `torch.cat([a, b], dim=1)`. -/
def cat1Shape (a b : Shape2) : Option Shape2 :=
  if a.batch = b.batch then some ⟨a.batch, a.features + b.features⟩ else none

/-- One `conv + batchnorm + relu + maxpool + dropout` block of
`CNNFeatureExtractor` (`model.py`, `conv1`/`conv2`/`conv3`):
`Conv2d(inC, outC, kernel_size=3, padding=1)` then `MaxPool2d(2, 2)`. -/
def convBlockShape (inC outC : Nat) (s : Shape4) : Option Shape4 := do
  let s1 ← conv2dShape inC outC 3 1 s
  let s2 ← batchNorm2dShape outC s1
  maxPool2dShape 2 2 s2

/-- `CNNFeatureExtractor.forward` (`model.py`): three conv blocks
`3 → c0 → c1 → c2`, global average pooling, then flatten. -/
def cnnForwardShape (channels : List Nat) (s : Shape4) : Option Shape2 :=
  match channels with
  | [c0, c1, c2] => do
    let s1 ← convBlockShape 3 c0 s
    let s2 ← convBlockShape c0 c1 s1
    let s3 ← convBlockShape c1 c2 s2
    let s4 ← adaptiveAvgPool2dShape s3
    pure (flattenShape s4)
  | _ => none

/-- `MetadataEncoder.forward` (`model.py`): the `lat/90`, `lon/180`
normalizations are shape-identities; `torch.cat([lat, lon, src], dim=1)`
then the two-layer `fc` with input width `2 + num_sources`. -/
def metadataEncoderShape (numSources hiddenDim : Nat)
    (lat lon src : Shape2) : Option Shape2 := do
  let c1 ← cat1Shape lat lon
  let c2 ← cat1Shape c1 src
  let f1 ← linearShape (2 + numSources) hiddenDim c2
  let f2 ← batchNorm1dShape hiddenDim f1
  let f3 ← linearShape hiddenDim hiddenDim f2
  batchNorm1dShape hiddenDim f3

/-- `FusionLayer.forward` (`model.py`): concatenation then the two-layer
`fusion` MLP with input width `image_dim + metadata_dim`. -/
def fusionShape (imageDim metadataDim fusionDim : Nat)
    (im meta : Shape2) : Option Shape2 := do
  let c ← cat1Shape im meta
  let f1 ← linearShape (imageDim + metadataDim) fusionDim c
  let f2 ← batchNorm1dShape fusionDim f1
  let f3 ← linearShape fusionDim fusionDim f2
  batchNorm1dShape fusionDim f3

/-- Model configuration, the fields `AccessAtlasModel.__init__` reads from
`config['model']` and `config['source_types']`. -/
structure ModelConfig where
  cnnChannels : List Nat
  metadataHidden : Nat
  fusionHidden : Nat
  numClasses : Nat
  sourceTypes : List String
deriving DecidableEq, Repr

/-- `AccessAtlasModel.forward` (`model.py`): CNN branch, metadata branch,
fusion with `image_dim = channels[2]` and `metadata_dim = metadata_hidden`,
then the classifier head `Dropout + Linear(fusion_hidden, num_classes)`. -/
def accessAtlasForwardShape (cfg : ModelConfig)
    (image : Shape4) (lat lon src : Shape2) : Option Shape2 :=
  match cfg.cnnChannels with
  | [c0, c1, c2] => do
    let imF ← cnnForwardShape [c0, c1, c2] image
    let mF ← metadataEncoderShape cfg.sourceTypes.length cfg.metadataHidden lat lon src
    let fused ← fusionShape c2 cfg.metadataHidden cfg.fusionHidden imF mF
    linearShape cfg.fusionHidden cfg.numClasses fused
  | _ => none

/-! ### Shape-evaluation lemmas for the model branches -/

lemma convBlockShape_eval (inC outC B H W : Nat) (hH : 2 ≤ H) (hW : 2 ≤ W) :
    convBlockShape inC outC ⟨B, inC, H, W⟩ = some ⟨B, outC, H / 2, W / 2⟩ := by
  have e1 : conv2dShape inC outC 3 1 ⟨B, inC, H, W⟩ = some ⟨B, outC, H, W⟩ := by
    unfold conv2dShape
    rw [if_pos]
    · dsimp only
      congr 2 <;> omega
    · refine ⟨rfl, ?_, ?_⟩ <;> (dsimp only; omega)
  have e2 : batchNorm2dShape outC (⟨B, outC, H, W⟩ : Shape4) = some ⟨B, outC, H, W⟩ := by
    simp [batchNorm2dShape]
  have e3 : maxPool2dShape 2 2 (⟨B, outC, H, W⟩ : Shape4) = some ⟨B, outC, H / 2, W / 2⟩ := by
    unfold maxPool2dShape
    rw [if_pos]
    · dsimp only
      congr 2 <;> omega
    · exact ⟨hH, hW⟩
  simp [convBlockShape, e1, e2, e3]

lemma metadataEncoderShape_eval (S hidden B : Nat) :
    metadataEncoderShape S hidden ⟨B, 1⟩ ⟨B, 1⟩ ⟨B, S⟩ = some ⟨B, hidden⟩ := by
  simp [metadataEncoderShape, cat1Shape, linearShape, batchNorm1dShape]

lemma fusionShape_eval (imD mD fD B : Nat) :
    fusionShape imD mD fD ⟨B, imD⟩ ⟨B, mD⟩ = some ⟨B, fD⟩ := by
  simp [fusionShape, cat1Shape, linearShape, batchNorm1dShape]

/-- C1: for every batch size `B`, every image of shape `[B, 3, H, W]` large
enough to survive the three stride-2 poolings (`8 ≤ H`, `8 ≤ W`; the
pipeline uses `224`), lat/lon of shape `[B, 1]` and a source one-hot of
shape `[B, S]` with `S = len(config['source_types'])`,
`AccessAtlasModel.forward` returns logits of shape `[B, num_classes]`:
the batch dimension is preserved through the CNN branch, the metadata
branch, the fusion block and the classifier head. -/
theorem model_forward_shape (cfg : ModelConfig) (B H W c0 c1 c2 : Nat)
    (hch : cfg.cnnChannels = [c0, c1, c2]) (hH : 8 ≤ H) (hW : 8 ≤ W) :
    accessAtlasForwardShape cfg ⟨B, 3, H, W⟩ ⟨B, 1⟩ ⟨B, 1⟩ ⟨B, cfg.sourceTypes.length⟩
      = some ⟨B, cfg.numClasses⟩ := by
  have h1 : convBlockShape 3 c0 ⟨B, 3, H, W⟩ = some ⟨B, c0, H / 2, W / 2⟩ :=
    convBlockShape_eval _ _ _ _ _ (by omega) (by omega)
  have h2 : convBlockShape c0 c1 ⟨B, c0, H / 2, W / 2⟩ = some ⟨B, c1, H / 2 / 2, W / 2 / 2⟩ :=
    convBlockShape_eval _ _ _ _ _ (by omega) (by omega)
  have h3 : convBlockShape c1 c2 ⟨B, c1, H / 2 / 2, W / 2 / 2⟩
      = some ⟨B, c2, H / 2 / 2 / 2, W / 2 / 2 / 2⟩ :=
    convBlockShape_eval _ _ _ _ _ (by omega) (by omega)
  have h4 : adaptiveAvgPool2dShape ⟨B, c2, H / 2 / 2 / 2, W / 2 / 2 / 2⟩
      = some ⟨B, c2, 1, 1⟩ := by
    unfold adaptiveAvgPool2dShape
    rw [if_pos]
    refine ⟨?_, ?_⟩ <;> (dsimp only; omega)
  have hcnn : cnnForwardShape [c0, c1, c2] ⟨B, 3, H, W⟩ = some ⟨B, c2⟩ := by
    simp [cnnForwardShape, h1, h2, h3, h4, flattenShape]
  simp [accessAtlasForwardShape, hch, hcnn, metadataEncoderShape_eval, fusionShape_eval,
    linearShape]

/-- Witness for C1: the default configuration of `config.yaml`
(`cnn_channels = [32, 64, 128]`, `metadata_hidden = 64`,
`fusion_hidden = 256`, `num_classes = 7`, three source types) on a batch
of 4 images of size 224×224 yields logits of shape `[4, 7]`. -/
theorem model_forward_shape_witness :
    accessAtlasForwardShape ⟨[32, 64, 128], 64, 256, 7, ["user", "osm", "model"]⟩
      ⟨4, 3, 224, 224⟩ ⟨4, 1⟩ ⟨4, 1⟩ ⟨4, 3⟩ = some ⟨4, 7⟩ :=
  model_forward_shape ⟨[32, 64, 128], 64, 256, 7, ["user", "osm", "model"]⟩
    4 224 224 32 64 128 rfl (by decide) (by decide)

/-! ## Trainer epoch loop (`src/models/baseline/train.py`)

`Trainer.train` (lines 240–287) iterates `epoch in range(num_epochs)`;
after validating it updates `(best_val_acc, epochs_without_improvement)`
with the strict test `val_acc > self.best_val_acc` (line 275) and breaks
when `epochs_without_improvement >= early_stopping_patience` (line 284).
Validation accuracies are abstracted as a sequence `vals : Nat → ℚ`
(`validate` returns `100 * correct / total`, so real accuracies are
nonnegative); `Trainer.__init__` starts from `best_val_acc = 0.0`,
`epochs_without_improvement = 0` (lines 80–81). -/

/-- The per-epoch update of `(best_val_acc, epochs_without_improvement)`
(train.py lines 275–281): a strictly better `val_acc` replaces the best
and resets the counter, otherwise the counter increments. -/
def valStep (s : ℚ × Nat) (v : ℚ) : ℚ × Nat :=
  if s.1 < v then (v, 0) else (s.1, s.2 + 1)

/-- `m` successive epoch updates starting from state `s` at epoch index
`epoch`. -/
def stepsFrom (vals : Nat → ℚ) (s : ℚ × Nat) (epoch : Nat) : Nat → ℚ × Nat
  | 0 => s
  | m + 1 => valStep (stepsFrom vals s epoch m) (vals (epoch + m))

/-- `(best_val_acc, epochs_without_improvement)` after `n` completed
epochs, from the initial state of `Trainer.__init__`. -/
def trainerState (vals : Nat → ℚ) (n : Nat) : ℚ × Nat :=
  stepsFrom vals (0, 0) 0 n

/-- The epoch loop of `Trainer.train` with the early-stopping break:
returns the number of epochs actually executed, given the state `s`, the
next epoch index and the number of epochs remaining. -/
def trainLoopAux (vals : Nat → ℚ) (patience : Nat) : (ℚ × Nat) → Nat → Nat → Nat
  | _, epoch, 0 => epoch
  | s, epoch, r + 1 =>
    let s' := valStep s (vals epoch)
    if patience ≤ s'.2 then epoch + 1
    else trainLoopAux vals patience s' (epoch + 1) r

/-- Number of epochs `Trainer.train` executes before exiting its loop
(either by early stopping or by exhausting `num_epochs`). -/
def epochsRun (vals : Nat → ℚ) (numEpochs patience : Nat) : Nat :=
  trainLoopAux vals patience (0, 0) 0 numEpochs

lemma trainerState_succ (vals : Nat → ℚ) (n : Nat) :
    trainerState vals (n + 1) = valStep (trainerState vals n) (vals n) := by
  simp [trainerState, stepsFrom]

lemma valStep_fst (s : ℚ × Nat) (v : ℚ) : (valStep s v).1 = max s.1 v := by
  by_cases h : s.1 < v
  · simp [valStep, h, max_eq_right h.le]
  · simp [valStep, h, max_eq_left (not_lt.mp h)]

lemma trainerState_best_succ (vals : Nat → ℚ) (n : Nat) :
    (trainerState vals (n + 1)).1 = max (trainerState vals n).1 (vals n) := by
  rw [trainerState_succ, valStep_fst]

lemma trainerState_best_mono (vals : Nat → ℚ) (n : Nat) :
    (trainerState vals n).1 ≤ (trainerState vals (n + 1)).1 := by
  rw [trainerState_best_succ]; exact le_max_left _ _

lemma trainerState_best_ub (vals : Nat → ℚ) (n : Nat) :
    ∀ j, j < n → vals j ≤ (trainerState vals n).1 := by
  induction n with
  | zero => intro j hj; omega
  | succ n ih =>
    intro j hj
    rcases Nat.lt_succ_iff_lt_or_eq.mp hj with h | h
    · exact (ih j h).trans (trainerState_best_mono vals n)
    · rw [h, trainerState_best_succ]; exact le_max_right _ _

lemma trainerState_best_mem (vals : Nat → ℚ) (hnn : ∀ k, 0 ≤ vals k) (n : Nat)
    (hn : 0 < n) : ∃ i, i < n ∧ (trainerState vals n).1 = vals i := by
  induction n with
  | zero => omega
  | succ n ih =>
    rcases Nat.eq_zero_or_pos n with h0 | hpos
    · subst h0
      refine ⟨0, Nat.zero_lt_one, ?_⟩
      rw [trainerState_best_succ]
      have h00 : (trainerState vals 0).1 = 0 := rfl
      rw [h00, max_eq_right (hnn 0)]
    · rcases le_or_lt (vals n) (trainerState vals n).1 with h | h
      · obtain ⟨i, hi, hei⟩ := ih hpos
        exact ⟨i, by omega, by rw [trainerState_best_succ, max_eq_left h, hei]⟩
      · exact ⟨n, by omega, by rw [trainerState_best_succ, max_eq_right h.le]⟩

lemma trainerState_noimprove (vals : Nat → ℚ) (n : Nat)
    (h : vals n ≤ (trainerState vals n).1) :
    (trainerState vals (n + 1)).2 = (trainerState vals n).2 + 1 := by
  rw [trainerState_succ]
  simp [valStep, not_lt.mpr h]

lemma trainerState_improve (vals : Nat → ℚ) (n : Nat)
    (h : (trainerState vals n).1 < vals n) :
    (trainerState vals (n + 1)).2 = 0 := by
  rw [trainerState_succ]
  simp [valStep, h]

/-- C10: along `Trainer.train`, `best_val_acc` is non-decreasing, after
each epoch it is the maximum of the previous best and that epoch's
accuracy — hence (for the nonnegative accuracies `validate` produces) the
maximum accuracy observed so far, attained at some earlier epoch — and
the improvement test is strict: an epoch whose accuracy is at most
(in particular, exactly equal to) the current best increments
`epochs_without_improvement`, while a strict improvement resets it to 0. -/
theorem best_val_acc_invariant (vals : Nat → ℚ) (hnn : ∀ k, 0 ≤ vals k) (n : Nat) :
    (trainerState vals n).1 ≤ (trainerState vals (n + 1)).1
    ∧ (trainerState vals (n + 1)).1 = max (trainerState vals n).1 (vals n)
    ∧ (∀ j, j < n → vals j ≤ (trainerState vals n).1)
    ∧ (0 < n → ∃ i, i < n ∧ (trainerState vals n).1 = vals i)
    ∧ (vals n ≤ (trainerState vals n).1 →
        (trainerState vals (n + 1)).2 = (trainerState vals n).2 + 1)
    ∧ ((trainerState vals n).1 < vals n → (trainerState vals (n + 1)).2 = 0) :=
  ⟨trainerState_best_mono vals n, trainerState_best_succ vals n,
    trainerState_best_ub vals n, trainerState_best_mem vals hnn n,
    trainerState_noimprove vals n, trainerState_improve vals n⟩

/-- Witness for C10 at the constant accuracy sequence `7` after one
epoch: the best is attained and the equal-accuracy epoch counts as no
improvement. -/
theorem best_val_acc_invariant_witness :
    (trainerState (fun _ => (7 : ℚ)) 1).1 ≤ (trainerState (fun _ => (7 : ℚ)) 2).1
    ∧ (trainerState (fun _ => (7 : ℚ)) 2).1
        = max (trainerState (fun _ => (7 : ℚ)) 1).1 ((fun _ => (7 : ℚ)) 1)
    ∧ (∀ j, j < 1 → (fun _ => (7 : ℚ)) j ≤ (trainerState (fun _ => (7 : ℚ)) 1).1)
    ∧ (0 < 1 → ∃ i, i < 1 ∧ (trainerState (fun _ => (7 : ℚ)) 1).1 = (fun _ => (7 : ℚ)) i)
    ∧ ((fun _ => (7 : ℚ)) 1 ≤ (trainerState (fun _ => (7 : ℚ)) 1).1 →
        (trainerState (fun _ => (7 : ℚ)) 2).2 = (trainerState (fun _ => (7 : ℚ)) 1).2 + 1)
    ∧ ((trainerState (fun _ => (7 : ℚ)) 1).1 < (fun _ => (7 : ℚ)) 1 →
        (trainerState (fun _ => (7 : ℚ)) 2).2 = 0) :=
  best_val_acc_invariant (fun _ => (7 : ℚ)) (fun _ => by norm_num) 1

lemma stepsFrom_shift (vals : Nat → ℚ) (s : ℚ × Nat) (epoch : Nat) (m : Nat) :
    stepsFrom vals s epoch (m + 1) = stepsFrom vals (valStep s (vals epoch)) (epoch + 1) m := by
  induction m with
  | zero => simp [stepsFrom]
  | succ m ih =>
    rw [stepsFrom, ih, stepsFrom]
    have h : epoch + (m + 1) = epoch + 1 + m := by omega
    rw [h]

lemma trainLoopAux_le (vals : Nat → ℚ) (patience : Nat) (r : Nat) :
    ∀ s epoch, trainLoopAux vals patience s epoch r ≤ epoch + r := by
  induction r with
  | zero => intro s epoch; simp [trainLoopAux]
  | succ r ih =>
    intro s epoch
    simp only [trainLoopAux]
    by_cases h : patience ≤ (valStep s (vals epoch)).2
    · rw [if_pos h]; omega
    · rw [if_neg h]
      have := ih (valStep s (vals epoch)) (epoch + 1)
      omega

lemma trainLoopAux_halt (vals : Nat → ℚ) (patience : Nat) (r : Nat) :
    ∀ s epoch, (∀ j, epoch ≤ j → vals j ≤ s.1) → s.2 < patience →
    trainLoopAux vals patience s epoch r ≤ epoch + (patience - s.2) := by
  induction r with
  | zero => intro s epoch _ _; simp [trainLoopAux]
  | succ r ih =>
    intro s epoch hno hc
    have hv : vals epoch ≤ s.1 := hno epoch le_rfl
    have hs' : valStep s (vals epoch) = (s.1, s.2 + 1) := by
      simp [valStep, not_lt.mpr hv]
    simp only [trainLoopAux, hs']
    by_cases h : patience ≤ (s.1, s.2 + 1).2
    · rw [if_pos h]
      have hle : patience ≤ s.2 + 1 := h
      omega
    · rw [if_neg h]
      have hlt : s.2 + 1 < patience := by
        have hnle : ¬ patience ≤ s.2 + 1 := h
        omega
      have hrec := ih (s.1, s.2 + 1) (epoch + 1) (fun j hj => hno j (by omega)) hlt
      have h2 : ((s.1, s.2 + 1) : ℚ × Nat).2 = s.2 + 1 := rfl
      rw [h2] at hrec
      omega

lemma trainLoopAux_split (vals : Nat → ℚ) (patience : Nat) (r1 : Nat) :
    ∀ r2 s epoch,
      trainLoopAux vals patience s epoch (r1 + r2) ≤ epoch + r1 ∨
      ((0 < r1 → (stepsFrom vals s epoch r1).2 < patience) ∧
        trainLoopAux vals patience s epoch (r1 + r2)
          = trainLoopAux vals patience (stepsFrom vals s epoch r1) (epoch + r1) r2) := by
  induction r1 with
  | zero =>
    intro r2 s epoch
    right
    refine ⟨fun h => absurd h (by omega), ?_⟩
    simp [stepsFrom]
  | succ r1 ih =>
    intro r2 s epoch
    have harr : r1 + 1 + r2 = (r1 + r2) + 1 := by omega
    rw [harr]
    simp only [trainLoopAux]
    by_cases h : patience ≤ (valStep s (vals epoch)).2
    · rw [if_pos h]; left; omega
    · rw [if_neg h]
      rcases ih r2 (valStep s (vals epoch)) (epoch + 1) with hle | ⟨hcnt, heq⟩
      · left; omega
      · right
        constructor
        · intro _
          rw [stepsFrom_shift]
          rcases Nat.eq_zero_or_pos r1 with h0 | hpos
          · subst h0
            simp only [stepsFrom]
            omega
          · exact hcnt hpos
        · rw [stepsFrom_shift, heq]
          have he : epoch + (r1 + 1) = epoch + 1 + r1 := by omega
          rw [he]

/-- C5: if no epoch after epoch `K` (0-indexed) strictly improves on the
best validation accuracy reached by epoch `K`, then `Trainer.train` exits
its epoch loop after at most `(K + 1) + patience` epochs — in particular
it does not run to `num_epochs` when that is larger. -/
theorem early_stopping_halts (vals : Nat → ℚ) (numEpochs patience K : Nat)
    (hK : ∀ j, K < j → vals j ≤ (trainerState vals (K + 1)).1) :
    epochsRun vals numEpochs patience ≤ (K + 1) + patience := by
  rcases Nat.eq_zero_or_pos patience with hp0 | hppos
  · subst hp0
    rcases numEpochs with _ | n
    · simp [epochsRun, trainLoopAux]
    · have h1 : epochsRun vals (n + 1) 0 = 1 := by
        simp [epochsRun, trainLoopAux]
      omega
  · rcases le_or_lt numEpochs (K + 1) with hle | hgt
    · have := trainLoopAux_le vals patience numEpochs (0, 0) 0
      unfold epochsRun
      omega
    · have hsplit := trainLoopAux_split vals patience (K + 1) (numEpochs - (K + 1)) (0, 0) 0
      rw [show K + 1 + (numEpochs - (K + 1)) = numEpochs from by omega] at hsplit
      rcases hsplit with h | ⟨hcnt, heq⟩
      · unfold epochsRun; omega
      · have hc : (trainerState vals (K + 1)).2 < patience := hcnt (by omega)
        have hno : ∀ j, 0 + (K + 1) ≤ j → vals j ≤ (trainerState vals (K + 1)).1 :=
          fun j hj => hK j (by omega)
        have hhalt := trainLoopAux_halt vals patience (numEpochs - (K + 1))
          (trainerState vals (K + 1)) (0 + (K + 1)) hno hc
        unfold epochsRun
        rw [heq]
        have hsf : stepsFrom vals (0, 0) 0 (K + 1) = trainerState vals (K + 1) := rfl
        rw [hsf]
        omega

/-- Witness for C5: accuracies `50, 40, 40, 40, …` never improve after
epoch 0, so with `patience = 3` and `num_epochs = 100` the loop runs at
most `1 + 3 = 4` epochs (it runs exactly 4). -/
theorem early_stopping_halts_witness :
    epochsRun (fun j => if j = 0 then (50 : ℚ) else 40) 100 3 ≤ 0 + 1 + 3 :=
  early_stopping_halts (fun j => if j = 0 then (50 : ℚ) else 40) 100 3 0 (by
    intro j hj
    have hj0 : j ≠ 0 := by omega
    simp only [hj0, if_false, trainerState, stepsFrom, valStep]
    norm_num)

/-! ## Dataset adapter (`src/models/baseline/dataset.py`)

`TagDataset.__getitem__` (lines 52–102) loads the row's image (falling
back to a blank image on any `Image.open` failure), applies the transform,
and returns the dict
`{image, lat, lon, source_onehot, label, info}` where `lat`/`lon` are the
raw `row['lat']`/`row['lon']` values wrapped in a 1-element tensor. -/

/-- One row of a split CSV as consumed by `TagDataset` (`ty` stands for
the CSV column named `type`). -/
structure CsvRow where
  image_path : String
  lat : ℚ
  lon : ℚ
  ty : String
  source : String
deriving DecidableEq, Repr

/-- A PIL image abstracted to its mode and pixel dimensions. -/
structure PILImage where
  mode : String
  width : Nat
  height : Nat
deriving DecidableEq, Repr

/-- The fallback `Image.new('RGB', (224, 224), color=(0, 0, 0))` of
`dataset.py` line 69. -/
def blankImage : PILImage := ⟨"RGB", 224, 224⟩

/-- The dict `TagDataset.__getitem__` returns (the `info` sub-dict holds
the row fields used for error analysis).  `α` is the type the image
transform produces. -/
structure Sample (α : Type) where
  image : α
  lat : List ℚ
  lon : List ℚ
  source_onehot : List ℚ
  label : Nat
  info : CsvRow
deriving DecidableEq, Repr

/-- `torch.zeros(n)` with index `idx` set to `1.0`
(`dataset.py` lines 79–81). -/
def oneHot (n idx : Nat) : List ℚ :=
  (List.range n).map (fun i => if i = idx then 1 else 0)

/-- `TagDataset.__getitem__` (`dataset.py` lines 52–102).  `loadResult`
is the outcome of `Image.open(image_path).convert('RGB')` — `Except.error`
models the exception branch, which logs and substitutes `blankImage`.
The returned `List String` holds the console log lines.  `lat`/`lon` are
passed through raw; `label` and the one-hot index come from the
`tag_to_idx` / `source_to_idx` mappings built by `enumerate` over the
configured type lists. -/
def tagDatasetGetitem {α : Type} (tagTypes sourceTypes : List String)
    (loadResult : Except String PILImage) (transform : PILImage → α)
    (row : CsvRow) : Sample α × List String :=
  let loaded :=
    match loadResult with
    | Except.ok img => (img, ([] : List String))
    | Except.error e => (blankImage, ["Error loading " ++ row.image_path ++ ": " ++ e])
  (⟨transform loaded.1, [row.lat], [row.lon],
    oneHot sourceTypes.length (sourceTypes.indexOf row.source),
    tagTypes.indexOf row.ty, row⟩, loaded.2)

/-- The z-score standardization the preprocessor's `StandardScaler`
applies and whose statistics it records in the metadata
(`preprocess.py` `normalize_coordinates`, lines 127–137):
`x ↦ (x - mean) / std`. -/
def standardize (x mean std : ℚ) : ℚ := (x - mean) / std

/-- The metadata vector `MetadataEncoder.forward` actually feeds its MLP
(`model.py` lines 100–105): `torch.cat([lat / 90.0, lon / 180.0,
source_onehot])` for a single sample. -/
def metadataEncoderInput (lat lon : ℚ) (sourceOnehot : List ℚ) : List ℚ :=
  lat / 90 :: lon / 180 :: sourceOnehot

/-- C8: on an image-load failure, `TagDataset.__getitem__` does not raise
but substitutes the blank 224×224 RGB fallback image and still returns a
complete sample (image, lat, lon, source one-hot, label), with the error
logged to console. -/
theorem getitem_image_error_fallback {α : Type} (tagTypes sourceTypes : List String)
    (transform : PILImage → α) (row : CsvRow) (e : String) :
    tagDatasetGetitem tagTypes sourceTypes (Except.error e) transform row
      = (⟨transform blankImage, [row.lat], [row.lon],
          oneHot sourceTypes.length (sourceTypes.indexOf row.source),
          tagTypes.indexOf row.ty, row⟩,
         ["Error loading " ++ row.image_path ++ ": " ++ e])
    ∧ blankImage = ⟨"RGB", 224, 224⟩ := ⟨rfl, rfl⟩

/-- Counterexample to C6 as stated: for the row `(lat, lon) = (10, 20)`
and normalization statistics `mean = 3`, `std = 2` recorded by the
preprocessor, the `lat` value `TagDataset.__getitem__` yields is **not**
the standardized coordinate `(10 - 3) / 2`. -/
theorem dataset_lat_raw_counterexample :
    ¬ ((tagDatasetGetitem ["Ramp"] ["user"] (Except.ok blankImage) id
        ⟨"a.jpg", 10, 20, "Ramp", "user"⟩).1.lat = [standardize 10 3 2]) := by
  simp only [tagDatasetGetitem, standardize]
  norm_num

/-- C6 (amended): `TagDataset.__getitem__` yields the **raw** `lat`/`lon`
values of the row — the preprocessor's mean/std metadata is not consumed —
and the only coordinate normalization is the fixed `lat / 90`, `lon / 180`
applied inside `MetadataEncoder.forward`. -/
theorem dataset_yields_raw_coordinates {α : Type} (tagTypes sourceTypes : List String)
    (load : Except String PILImage) (transform : PILImage → α) (row : CsvRow) :
    (tagDatasetGetitem tagTypes sourceTypes load transform row).1.lat = [row.lat]
    ∧ (tagDatasetGetitem tagTypes sourceTypes load transform row).1.lon = [row.lon]
    ∧ metadataEncoderInput row.lat row.lon
        (tagDatasetGetitem tagTypes sourceTypes load transform row).1.source_onehot
      = row.lat / 90 :: row.lon / 180 ::
          oneHot sourceTypes.length (sourceTypes.indexOf row.source) := by
  refine ⟨?_, ?_, ?_⟩ <;> cases load <;> rfl

/-! ## Trainer batch loop trace (`Trainer.train_epoch`, train.py 85–136)

Per batch the loop runs `optimizer.zero_grad()` (line 104), one forward
pass and one `loss.backward()` (lines 105–109), `clip_grad_norm_` iff
`config['training']['grad_clip'] > 0` (lines 112–116), then
`optimizer.step()` (line 118).  The optimizer-relevant operations are
recorded as a trace. -/

inductive TrainOp where
  | zeroGrad
  | forwardBackward
  | clipGrad
  | optimizerStep
deriving DecidableEq, Repr

/-- The operations of one batch iteration that precede `optimizer.step()`. -/
def preStepOps (gradClip : ℚ) : List TrainOp :=
  [TrainOp.zeroGrad, TrainOp.forwardBackward]
    ++ (if 0 < gradClip then [TrainOp.clipGrad] else [])

/-- The full operation list of one batch iteration of `train_epoch`. -/
def batchOps (gradClip : ℚ) : List TrainOp :=
  preStepOps gradClip ++ [TrainOp.optimizerStep]

/-- The operation trace of one epoch over `n` batches. -/
def trainEpochTrace (gradClip : ℚ) (n : Nat) : List TrainOp :=
  (List.replicate n (batchOps gradClip)).flatten

lemma preStepOps_no_step (gradClip : ℚ) :
    ∀ x ∈ preStepOps gradClip, ¬((x == TrainOp.optimizerStep) = true) := by
  intro x hx hbe
  have hxe : x = TrainOp.optimizerStep := by simpa using hbe
  subst hxe
  by_cases hg : 0 < gradClip <;> simp [preStepOps, hg] at hx

/-- Chopping the epoch trace at the `optimizer.step` calls yields the `n`
inter-step segments followed by the empty remainder. -/
lemma trace_splitOn (gradClip : ℚ) (n : Nat) :
    (trainEpochTrace gradClip n).splitOn TrainOp.optimizerStep
      = List.replicate n (preStepOps gradClip) ++ [[]] := by
  induction n with
  | zero => simp [trainEpochTrace, List.splitOn, List.splitOnP_nil]
  | succ n ih =>
    have hdec : trainEpochTrace gradClip (n + 1)
        = preStepOps gradClip ++ TrainOp.optimizerStep :: trainEpochTrace gradClip n := by
      simp [trainEpochTrace, batchOps, List.replicate_succ]
    rw [hdec, List.splitOn,
      List.splitOnP_first _ _ (preStepOps_no_step gradClip) _ (by decide)]
    rw [List.splitOn] at ih
    rw [ih, List.replicate_succ]
    rfl

/-- Counterexample to C7 as stated: with `grad_clip = 1` and 2 batches,
there is **no** accumulation factor `k > 1` such that every inter-step
segment of `train_epoch`'s trace contains `k` forward/backward passes —
each segment contains exactly one. -/
theorem grad_accumulation_counterexample :
    ¬ ∃ k, 1 < k ∧
      ∀ seg ∈ ((trainEpochTrace 1 2).splitOn TrainOp.optimizerStep).dropLast,
        seg.count TrainOp.forwardBackward = k := by
  rintro ⟨k, hk, hall⟩
  have hmem : [TrainOp.zeroGrad, TrainOp.forwardBackward, TrainOp.clipGrad]
      ∈ ((trainEpochTrace 1 2).splitOn TrainOp.optimizerStep).dropLast := by
    rw [trace_splitOn]
    norm_num [preStepOps]
  have h1 := hall _ hmem
  have h2 : ([TrainOp.zeroGrad, TrainOp.forwardBackward,
      TrainOp.clipGrad].count TrainOp.forwardBackward) = 1 := by decide
  omega

/-- C7 (amended): `Trainer.train_epoch` implements **no** gradient
accumulation — every inter-step segment contains exactly one
forward/backward pass, so each epoch performs `n` optimizer steps and `n`
forward/backward passes over `n` batches — and gradient clipping precedes
an optimizer step exactly when `grad_clip > 0` is configured (then it
precedes every step uniformly). -/
theorem train_epoch_single_pass_per_step (gradClip : ℚ) (n : Nat) :
    (∀ seg ∈ ((trainEpochTrace gradClip n).splitOn TrainOp.optimizerStep).dropLast,
        seg.count TrainOp.forwardBackward = 1
        ∧ (0 < gradClip ↔ TrainOp.clipGrad ∈ seg))
    ∧ (trainEpochTrace gradClip n).count TrainOp.optimizerStep = n
    ∧ (trainEpochTrace gradClip n).count TrainOp.forwardBackward = n := by
  refine ⟨?_, ?_, ?_⟩
  · intro seg hseg
    rw [trace_splitOn, List.dropLast_concat] at hseg
    have hseg' := List.eq_of_mem_replicate hseg
    subst hseg'
    by_cases hg : 0 < gradClip
    · simp [preStepOps, hg]
    · simp [preStepOps, hg]
  · rw [trainEpochTrace, List.count_flatten]
    by_cases hg : 0 < gradClip <;>
      simp [batchOps, preStepOps, hg, List.map_replicate, List.sum_replicate, smul_eq_mul]
  · rw [trainEpochTrace, List.count_flatten]
    by_cases hg : 0 < gradClip <;>
      simp [batchOps, preStepOps, hg, List.map_replicate, List.sum_replicate, smul_eq_mul]

/-! ## Checkpoint persistence (`src/models/baseline/train.py` 177–210,
`src/models/baseline/predict.py` 33–36)

A `state_dict` is abstracted as named parameter tensors (rational lists);
optimizer/scheduler state as opaque payloads.  `torch.save`/`torch.load`
round-trip the checkpoint dict unchanged, and `load_state_dict` (strict
mode, the default) replaces the model's parameters wholesale. -/

abbrev StateDict := List (String × List ℚ)

/-- A constructed model: its architecture is determined by the config
(`get_model`), its learned behavior by `params`. -/
structure TorchModel where
  config : ModelConfig
  params : StateDict
deriving DecidableEq, Repr

/-- `get_model(config)` (`model.py` 195–200); `initParams` stands for the
randomly initialized parameters. -/
def get_model (cfg : ModelConfig) (initParams : StateDict) : TorchModel :=
  ⟨cfg, initParams⟩

/-- `model.load_state_dict(sd)` in strict mode. -/
def load_state_dict (m : TorchModel) (sd : StateDict) : TorchModel :=
  { m with params := sd }

/-- The `Trainer` fields `save_checkpoint` reads (train.py 181–188);
`self.model = get_model(config)` ties the model to the trainer config. -/
structure TrainerCkpt where
  config : ModelConfig
  modelParams : StateDict
  optimizerState : List ℚ
  schedulerState : Option (List ℚ)
  currentEpoch : Nat
  bestValAcc : ℚ
deriving DecidableEq, Repr

/-- The trainer's in-memory model. -/
def trainerModel (t : TrainerCkpt) : TorchModel := ⟨t.config, t.modelParams⟩

/-- The checkpoint bundle of `Trainer.save_checkpoint` (train.py 181–188). -/
structure Checkpoint where
  epoch : Nat
  model_state_dict : StateDict
  optimizer_state_dict : List ℚ
  scheduler_state_dict : Option (List ℚ)
  best_val_acc : ℚ
  config : ModelConfig
deriving DecidableEq, Repr

/-- `Trainer.save_checkpoint` (train.py 177–197, minus the file path). -/
def save_checkpoint (t : TrainerCkpt) : Checkpoint :=
  ⟨t.currentEpoch, (trainerModel t).params, t.optimizerState, t.schedulerState,
    t.bestValAcc, t.config⟩

/-- `Predictor.__init__` (predict.py 33–36): construct a fresh
`get_model(config)` and load the checkpoint's `model_state_dict` into it. -/
def predictorLoad (cfg : ModelConfig) (initParams : StateDict) (c : Checkpoint) : TorchModel :=
  load_state_dict (get_model cfg initParams) c.model_state_dict

/-- C4: saving a checkpoint and loading its `model_state_dict` into a
freshly constructed model of the identical configuration (whatever its
random initialization) reproduces the trainer's model exactly, hence
identical output logits under every deterministic forward function and
every fixed input. -/
theorem checkpoint_roundtrip (t : TrainerCkpt) (initP : StateDict) :
    predictorLoad t.config initP (save_checkpoint t) = trainerModel t
    ∧ ∀ (forwardEval : TorchModel → List ℚ → List ℚ) (x : List ℚ),
        forwardEval (predictorLoad t.config initP (save_checkpoint t)) x
          = forwardEval (trainerModel t) x :=
  ⟨rfl, fun _ _ => rfl⟩

/-! ## Preprocessor configuration validation (`src/data/preprocess.py`)

`DataPreprocessor.__init__` (lines 50–51) rejects split ratios with
`if not np.isclose(train + val + test, 1.0): raise ValueError(...)`;
numpy's default tolerances are `rtol = 1e-5`, `atol = 1e-8`, so the test
is `|sum - 1| ≤ 1e-8 + 1e-5 * |1|`.  `load_data` (lines 84–90) raises
`ValueError` on missing required columns.  `preprocess` (lines 298–350)
writes the three split CSVs and the metadata JSON only after both checks
pass; `preprocessRun` records the files written and the error raised. -/

/-- `np.isclose(a, 1.0)` with numpy's default tolerances. -/
def iscloseOne (a : ℚ) : Prop := |a - 1| ≤ 1/100000000 + 1/100000 * 1

instance iscloseOne_dec : DecidablePred iscloseOne := fun a => by
  unfold iscloseOne; infer_instance

/-- The ratio validation of `DataPreprocessor.__init__` (lines 50–51). -/
def preprocessorInitCheck (train_split val_split test_split : ℚ) : Except String Unit :=
  if iscloseOne (train_split + val_split + test_split) then Except.ok ()
  else Except.error "Split ratios must sum to 1.0"

/-- The required CSV columns of `load_data` (line 87). -/
def requiredCols : List String := ["image_path", "lat", "lon", "type", "source"]

/-- An input CSV abstracted to its header and row count. -/
structure CsvFile where
  columns : List String
  rowCount : Nat
deriving DecidableEq, Repr

/-- The column validation of `DataPreprocessor.load_data` (lines 87–90). -/
def load_data (csv : CsvFile) : Except String CsvFile :=
  let missing := requiredCols.filter (fun c => decide (c ∉ csv.columns))
  if missing.isEmpty then Except.ok csv
  else Except.error "Missing required columns"

inductive FileWrite where
  | trainCsv
  | valCsv
  | testCsv
  | metadataJson
deriving DecidableEq, Repr

/-- Constructing a `DataPreprocessor` and running `preprocess`: the pair
of (files written, error raised).  The split CSVs and metadata JSON
(`save_splits`, `save_metadata`) are reached only after the ratio check
and `load_data` succeed. -/
def preprocessRun (tr va te : ℚ) (csv : CsvFile) : List FileWrite × Option String :=
  match preprocessorInitCheck tr va te with
  | Except.error e => ([], some e)
  | Except.ok () =>
    match load_data csv with
    | Except.error e => ([], some e)
    | Except.ok _ =>
      ([FileWrite.trainCsv, FileWrite.valCsv, FileWrite.testCsv, FileWrite.metadataJson], none)

/-- Counterexample to C9 as stated: the ratios `(0.7, 0.15, 0.150001)` do
**not** sum to 1.0, yet `DataPreprocessor` construction succeeds, because
`np.isclose` accepts any sum within `1e-8 + 1e-5` of 1.0. -/
theorem split_ratio_isclose_counterexample :
    (7/10 : ℚ) + 3/20 + 150001/1000000 ≠ 1
    ∧ preprocessorInitCheck (7/10) (3/20) (150001/1000000) = Except.ok () := by
  constructor
  · norm_num
  · unfold preprocessorInitCheck
    rw [if_pos]
    unfold iscloseOne
    rw [show (7/10 : ℚ) + 3/20 + 150001/1000000 - 1 = 1/1000000 by norm_num,
      abs_of_pos (by norm_num)]
    norm_num

/-- C9 (amended): ratios whose sum fails `np.isclose(·, 1.0)` (i.e.
differs from 1.0 by more than `1e-8 + 1e-5`) are rejected at construction
before any file output, and an input CSV missing a required column makes
`load_data` raise before any split or metadata file is written. -/
theorem preprocess_fatal_before_writes :
    (∀ (tr va te : ℚ) (csv : CsvFile), ¬ iscloseOne (tr + va + te) →
        preprocessRun tr va te csv = ([], some "Split ratios must sum to 1.0"))
    ∧ (∀ (tr va te : ℚ) (csv : CsvFile) (c : String), c ∈ requiredCols →
        c ∉ csv.columns →
        (preprocessRun tr va te csv).1 = [] ∧ (preprocessRun tr va te csv).2.isSome) := by
  constructor
  · intro tr va te csv h
    unfold preprocessRun preprocessorInitCheck
    rw [if_neg h]
  · intro tr va te csv c hreq hmiss
    unfold preprocessRun preprocessorInitCheck
    by_cases hc : iscloseOne (tr + va + te)
    · rw [if_pos hc]
      have hld : load_data csv = Except.error "Missing required columns" := by
        unfold load_data
        rw [if_neg]
        intro hemp
        have hnil : requiredCols.filter (fun x => decide (x ∉ csv.columns)) = [] :=
          List.isEmpty_iff.mp hemp
        have hcmem : c ∈ requiredCols.filter (fun x => decide (x ∉ csv.columns)) := by
          rw [List.mem_filter]
          exact ⟨hreq, by simpa using hmiss⟩
        rw [hnil] at hcmem
        exact List.not_mem_nil c hcmem
      rw [hld]
      exact ⟨rfl, rfl⟩
    · rw [if_neg hc]
      exact ⟨rfl, rfl⟩

/-- Witness for C9 (amended): ratios `(0.5, 0.2, 0.2)` (sum `0.9`, well
outside the tolerance) are rejected with no file written, and a CSV whose
header lacks the `lat` column produces a fatal error with no file
written. -/
theorem preprocess_fatal_before_writes_witness :
    preprocessRun (1/2) (1/5) (1/5) ⟨["image_path", "lat", "lon", "type", "source"], 10⟩
      = ([], some "Split ratios must sum to 1.0")
    ∧ ((preprocessRun (7/10) (3/20) (3/20) ⟨["image_path", "lon", "type", "source"], 10⟩).1 = []
      ∧ (preprocessRun (7/10) (3/20) (3/20)
          ⟨["image_path", "lon", "type", "source"], 10⟩).2.isSome) :=
  ⟨preprocess_fatal_before_writes.1 (1/2) (1/5) (1/5) _ (by
      unfold iscloseOne
      rw [show (1/2 : ℚ) + 1/5 + 1/5 - 1 = -(1/10) by norm_num, abs_neg,
        abs_of_pos (by norm_num)]
      norm_num),
    preprocess_fatal_before_writes.2 (7/10) (3/20) (3/20) _ "lat" (by decide) (by decide)⟩

/-! ## Stratified split (`src/data/preprocess.py` 206–247)

`DataPreprocessor.stratified_split` calls
`sklearn.model_selection.train_test_split(df, test_size=r, stratify=df['type'],
random_state=self.random_seed)` twice.  With a float `test_size` and no
`train_size`, sklearn draws `n_test = ceil(r * n)`, `n_train = n - n_test`
and runs `StratifiedShuffleSplit._iter_indices`: per-class training
allocations come from `_approximate_mode(class_counts, n_train, rng)`
(floor allocation plus one extra for the classes with the largest
remainders, in an rng-tie-broken order), the test allocations from
`_approximate_mode(class_counts - n_i, n_test, rng)`, and each class's
rows are shuffled before being cut into the train and test segments.

The pseudo-random stream is modelled by `SplitRng`: a row shuffle and the
remainder-priority order of `_approximate_mode`.  Theorems assume
`SplitRngOK` — each shuffle permutes its input, and the priority order is
a permutation of the class indices that lists all positive-remainder
classes first, which is exactly what numpy's sorted-by-remainder
processing guarantees.  Float ratio arithmetic is carried out in `ℚ`. -/

/-- A DataFrame row as the split sees it: its pandas index and the value
of its `type` column. -/
structure SRow (τ : Type) where
  idx : Nat
  ty : τ
deriving DecidableEq, Repr

/-- The pseudo-random choices one `train_test_split` call consumes. -/
structure SplitRng (τ : Type) where
  shuffle : List (SRow τ) → List (SRow τ)
  prio : List Nat → List Nat

/-- The (exact-arithmetic) remainders of `_approximate_mode`'s floor
allocation: class `i` has remainder `counts[i] * d mod Σ counts`. -/
def remsOf (counts : List Nat) (d : Nat) : List Nat :=
  counts.map (fun c => c * d % counts.sum)

/-- The floor allocation `floor(counts[i] / Σ counts * d)` of
`sklearn.utils._approximate_mode`. -/
def flooredOf (counts : List Nat) (d : Nat) : List Nat :=
  counts.map (fun c => c * d / counts.sum)

/-- `sklearn.utils._approximate_mode(class_counts, n_draws, rng)`: floor
allocation, then one extra draw for the first `n_draws - Σ floored`
classes in the rng's largest-remainder priority order `prio`. -/
def approxMode (counts : List Nat) (d : Nat) (prio : List Nat) : List Nat :=
  let floored := flooredOf counts d
  let need := d - floored.sum
  let chosen := prio.take need
  List.zipWith (fun a b => a + b) floored
    ((List.range counts.length).map (fun i => if i ∈ chosen then 1 else 0))

/-- What numpy's processing of remainders in decreasing order guarantees
about a priority order `p` for remainder list `r`: it permutes the class
indices, and its prefix of length `#{i | r i > 0}` consists of
positive-remainder classes. -/
def PrioValid (r p : List Nat) : Prop :=
  List.Perm p (List.range r.length) ∧
  ∀ i ∈ p.take (r.countP (fun x => decide (0 < x))), 0 < r.getD i 0

/-- The modelling assumptions on the pseudo-random stream. -/
def SplitRngOK {τ : Type} (rng : SplitRng τ) : Prop :=
  (∀ l, List.Perm (rng.shuffle l) l) ∧ (∀ r, PrioValid r (rng.prio r))

variable {τ : Type} [DecidableEq τ]

/-- The rows of one stratification class (`df[df['type'] == c]`). -/
def classRows (rows : List (SRow τ)) (c : τ) : List (SRow τ) :=
  rows.filter (fun x => decide (x.ty = c))

/-- One stratified `train_test_split(rows, test_size→nTest)` call:
`StratifiedShuffleSplit._iter_indices` followed by the final output
shuffles.  Returns `(train, test)`. -/
def tts_core (rng : SplitRng τ) (rows : List (SRow τ)) (nTest : Nat) :
    List (SRow τ) × List (SRow τ) :=
  let classes := (rows.map SRow.ty).dedup
  let counts := classes.map (fun c => (classRows rows c).length)
  let nTrain := rows.length - nTest
  let nI := approxMode counts nTrain (rng.prio (remsOf counts nTrain))
  let rem := List.zipWith (fun c n => c - n) counts nI
  let tI := approxMode rem nTest (rng.prio (remsOf rem nTest))
  let shuffled := classes.map (fun c => rng.shuffle (classRows rows c))
  let trainParts := List.zipWith (fun cls n => cls.take n) shuffled nI
  let dropped := List.zipWith (fun cls n => cls.drop n) shuffled nI
  let testParts := List.zipWith (fun cls t => cls.take t) dropped tI
  (rng.shuffle trainParts.flatten, rng.shuffle testParts.flatten)

/-- `train_test_split` with its `random_state` argument: `some seed`
derives the stream from the seed, `none` (not used by this repository)
would consume the ambient global numpy stream. -/
def train_test_split_model (randomState : Option Nat) (ambient : SplitRng τ)
    (seeded : Nat → SplitRng τ) (rows : List (SRow τ)) (nTest : Nat) :
    List (SRow τ) × List (SRow τ) :=
  tts_core (match randomState with | some s => seeded s | none => ambient) rows nTest

/-- `ceil` into `Nat`, as `_validate_shuffle_split` applies to
`test_size * n_samples`. -/
def natCeil (q : ℚ) : Nat := (⌈q⌉ : ℤ).toNat

/-- `DataPreprocessor.stratified_split` (preprocess.py 206–247): first
split separates the test set with `test_size = test_split`; the second
separates validation from training with
`test_size = val_split / (train_split + val_split)`.  Both calls pass
`random_state = self.random_seed`. -/
def stratified_split (ambient : SplitRng τ) (seeded : Nat → SplitRng τ)
    (trS vaS teS : ℚ) (seed : Nat) (df : List (SRow τ)) :
    List (SRow τ) × List (SRow τ) × List (SRow τ) :=
  let p1 := train_test_split_model (some seed) ambient seeded df (natCeil (teS * df.length))
  let p2 := train_test_split_model (some seed) ambient seeded p1.1
    (natCeil (vaS / (trS + vaS) * p1.1.length))
  (p2.1, p2.2, p1.2)

/-- C3: the preprocessor's split is deterministic — because both
`train_test_split` calls receive `random_state = self.random_seed`, the
output is independent of the ambient global numpy random state, hence two
runs with identical input rows, identical ratios and identical seed
produce identical train/val/test partitions. -/
theorem stratified_split_deterministic (ambient₁ ambient₂ : SplitRng τ)
    (seeded : Nat → SplitRng τ)
    (trS vaS teS : ℚ) (seed : Nat) (df : List (SRow τ)) :
    stratified_split ambient₁ seeded trS vaS teS seed df
      = stratified_split ambient₂ seeded trS vaS teS seed df := rfl


lemma sum_zipWith_add (a b : List Nat) (h : a.length = b.length) :
    (List.zipWith (fun x y => x + y) a b).sum = a.sum + b.sum := by
  induction a generalizing b with
  | nil => cases b <;> simp at h ⊢
  | cons x a ih =>
    cases b with
    | nil => simp at h
    | cons y b =>
      simp only [List.zipWith_cons_cons, List.sum_cons]
      rw [ih b (by simpa using h)]
      omega

lemma sum_map_indicator (l s : List Nat) :
    (l.map (fun i => if i ∈ s then 1 else 0)).sum = l.countP (fun i => decide (i ∈ s)) := by
  induction l with
  | nil => simp
  | cons x l ih =>
    simp only [List.map_cons, List.sum_cons, List.countP_cons, ih]
    by_cases h : x ∈ s <;> simp [h] <;> omega

lemma countP_mem_range_of_nodup (s : List Nat) (k : Nat) (hnd : s.Nodup)
    (hsub : ∀ x ∈ s, x < k) :
    (List.range k).countP (fun i => decide (i ∈ s)) = s.length := by
  rw [List.countP_eq_length_filter]
  have hperm : List.Perm ((List.range k).filter (fun i => decide (i ∈ s))) s := by
    rw [List.perm_ext_iff_of_nodup (List.Nodup.filter _ (List.nodup_range k)) hnd]
    intro a
    simp only [List.mem_filter, List.mem_range, decide_eq_true_eq]
    exact ⟨fun h => h.2, fun h => ⟨hsub a h, h⟩⟩
  exact hperm.length_eq

lemma sum_le_countP_mul (l : List Nat) (M : Nat) (h : ∀ x ∈ l, x ≤ M) :
    l.sum ≤ l.countP (fun x => decide (0 < x)) * M := by
  induction l with
  | nil => simp
  | cons a l ih =>
    have ha := h a (List.mem_cons_self a l)
    have ihl := ih (fun x hx => h x (List.mem_cons_of_mem a hx))
    simp only [List.sum_cons, List.countP_cons]
    by_cases h0 : 0 < a
    · have hp : decide (0 < a) = true := by simpa using h0
      rw [hp]
      simp only [if_true]
      rw [Nat.add_mul, Nat.one_mul]
      omega
    · have hz : a = 0 := by omega
      have hp : decide (0 < a) = false := by simpa using h0
      rw [hp]
      simp only [Bool.false_eq_true, if_false, Nat.add_zero]
      omega

lemma sum_map_add_nat {β : Type} (l : List β) (f g : β → Nat) :
    (l.map (fun x => f x + g x)).sum = (l.map f).sum + (l.map g).sum := by
  induction l with
  | nil => simp
  | cons x l ih => simp [ih]; omega

lemma sum_map_mul_left_nat {β : Type} (l : List β) (T : Nat) (f : β → Nat) :
    (l.map (fun x => T * f x)).sum = T * (l.map f).sum := by
  induction l with
  | nil => simp
  | cons x l ih => simp [ih, Nat.mul_add]

lemma sum_map_mul_right_nat (l : List Nat) (d : Nat) :
    (l.map (fun c => c * d)).sum = l.sum * d := by
  induction l with
  | nil => simp
  | cons x l ih => simp [ih, Nat.add_mul]

/-- The division identity underlying `_approximate_mode`:
`T * d = T * Σ floored + Σ rems`. -/
lemma floored_rems_identity (counts : List Nat) (d : Nat) :
    counts.sum * d = counts.sum * (flooredOf counts d).sum + (remsOf counts d).sum := by
  have h1 : (counts.map (fun c => c * d)).sum = counts.sum * d :=
    sum_map_mul_right_nat counts d
  have h2 : ∀ c ∈ counts,
      c * d = counts.sum * (c * d / counts.sum) + c * d % counts.sum :=
    fun c _ => (Nat.div_add_mod (c * d) counts.sum).symm
  have h3 : counts.map (fun c => c * d)
      = counts.map (fun c => counts.sum * (c * d / counts.sum) + c * d % counts.sum) :=
    List.map_congr_left h2
  rw [h3, sum_map_add_nat, sum_map_mul_left_nat] at h1
  rw [← h1]
  rfl

lemma flooredOf_sum_le (counts : List Nat) (d : Nat) (hd : d ≤ counts.sum) :
    (flooredOf counts d).sum ≤ d := by
  rcases Nat.eq_zero_or_pos counts.sum with hT | hT
  · have hz : ∀ x ∈ flooredOf counts d, x = 0 := by
      intro x hx
      simp only [flooredOf, List.mem_map] at hx
      rcases hx with ⟨c, hc, hcx⟩
      have hc0 : c = 0 := by
        have hle := List.single_le_sum (fun b _ => Nat.zero_le b) c hc
        omega
      subst hc0
      rw [Nat.zero_mul, Nat.zero_div] at hcx
      omega
    rw [List.sum_eq_zero hz]
    omega
  · have h1 := floored_rems_identity counts d
    by_contra hlt
    push_neg at hlt
    have h2 : counts.sum * d < counts.sum * (flooredOf counts d).sum :=
      (Nat.mul_lt_mul_left hT).mpr hlt
    omega

lemma need_le_pos (counts : List Nat) (d : Nat) (hd : d ≤ counts.sum) :
    d - (flooredOf counts d).sum
      ≤ (remsOf counts d).countP (fun x => decide (0 < x)) := by
  rcases Nat.eq_zero_or_pos counts.sum with hT | hT
  · have hd0 : d = 0 := by omega
    simp [hd0]
  · have hub : ∀ x ∈ remsOf counts d, x ≤ counts.sum - 1 := by
      intro x hx
      rcases List.mem_map.mp hx with ⟨c, _, hcx⟩
      have := Nat.mod_lt (c * d) hT
      omega
    have h2 := sum_le_countP_mul (remsOf counts d) (counts.sum - 1) hub
    have h1 := floored_rems_identity counts d
    have h3 := flooredOf_sum_le counts d hd
    set fl := (flooredOf counts d).sum with hfl
    set pos := (remsOf counts d).countP (fun x => decide (0 < x)) with hpos
    set T := counts.sum with hT'
    have h4 : T * (d - fl) = (remsOf counts d).sum := by
      have hsp : T * fl + T * (d - fl) = T * fl + (remsOf counts d).sum := by
        rw [← Nat.mul_add, Nat.add_sub_cancel' h3]
        exact h1
      omega
    by_contra hcon
    push_neg at hcon
    have h5 : pos + 1 ≤ d - fl := hcon
    have h6 : T * (pos + 1) ≤ T * (d - fl) := Nat.mul_le_mul_left T h5
    have h7 : pos * (T - 1) ≤ pos * T := Nat.mul_le_mul_left pos (by omega)
    rw [h4] at h6
    have h8 : T * (pos + 1) = T * pos + T := by ring
    have h9 : pos * T = T * pos := Nat.mul_comm pos T
    omega


lemma remsOf_length (counts : List Nat) (d : Nat) :
    (remsOf counts d).length = counts.length := by
  simp [remsOf]

lemma approxMode_length (counts : List Nat) (d : Nat) (p : List Nat) :
    (approxMode counts d p).length = counts.length := by
  simp [approxMode, flooredOf]

lemma zipWith_add_replicate_zero (l : List Nat) :
    List.zipWith (fun a b => a + b) l (List.replicate l.length 0) = l := by
  induction l with
  | nil => rfl
  | cons x l ih => simp [List.replicate_succ, ih]

lemma approxMode_sum (counts : List Nat) (d : Nat) (p : List Nat)
    (hd : d ≤ counts.sum) (hpv : PrioValid (remsOf counts d) p) :
    (approxMode counts d p).sum = d := by
  obtain ⟨hperm, _⟩ := hpv
  simp only [approxMode]
  set need := d - (flooredOf counts d).sum with hneed
  set chosen := p.take need with hchosen
  have hk : p.length = counts.length := by
    have hlen := hperm.length_eq
    simpa [remsOf_length] using hlen
  have hneed_le : need ≤ counts.length := by
    have h1 := need_le_pos counts d hd
    have h2 : (remsOf counts d).countP (fun x => decide (0 < x)) ≤ (remsOf counts d).length :=
      List.countP_le_length _
    rw [remsOf_length] at h2
    omega
  have hpnodup : p.Nodup := hperm.nodup_iff.mpr (List.nodup_range _)
  have hnodup : chosen.Nodup := (List.take_sublist need p).nodup hpnodup
  have hmem : ∀ x ∈ chosen, x < counts.length := by
    intro x hx
    have hxp : x ∈ p := List.mem_of_mem_take hx
    have hxr : x ∈ List.range (remsOf counts d).length := hperm.mem_iff.mp hxp
    rw [remsOf_length] at hxr
    exact List.mem_range.mp hxr
  have hchlen : chosen.length = need := by
    rw [hchosen, List.length_take]
    omega
  rw [sum_zipWith_add _ _ (by simp [flooredOf])]
  rw [sum_map_indicator (List.range counts.length) chosen]
  rw [countP_mem_range_of_nodup chosen counts.length hnodup hmem, hchlen]
  have := flooredOf_sum_le counts d hd
  omega

lemma approxMode_le (counts : List Nat) (d : Nat) (p : List Nat)
    (hd : d ≤ counts.sum) (hpv : PrioValid (remsOf counts d) p) :
    List.Forall₂ (fun a b => a ≤ b) (approxMode counts d p) counts := by
  obtain ⟨hperm, hpos⟩ := hpv
  rw [List.forall₂_iff_get]
  refine ⟨approxMode_length counts d p, ?_⟩
  intro i h₁ h₂
  simp only [List.get_eq_getElem]
  simp only [approxMode, List.getElem_zipWith, List.getElem_map, List.getElem_range, flooredOf]
  set need := d - (counts.map (fun c => c * d / counts.sum)).sum with hneed
  by_cases hin : i ∈ p.take need
  · have hneed_pos : need ≤ (remsOf counts d).countP (fun x => decide (0 < x)) := by
      have h1 := need_le_pos counts d hd
      simp only [flooredOf] at h1
      rw [hneed]
      exact h1
    have hin2 : i ∈ p.take ((remsOf counts d).countP (fun x => decide (0 < x))) := by
      have htt : p.take need
          = (p.take ((remsOf counts d).countP (fun x => decide (0 < x)))).take need := by
        rw [List.take_take, Nat.min_eq_left hneed_pos]
      rw [htt] at hin
      exact List.mem_of_mem_take hin
    have hri : 0 < (remsOf counts d).getD i 0 := hpos i hin2
    have hilen : i < (remsOf counts d).length := by rw [remsOf_length]; exact h₂
    rw [List.getD_eq_getElem _ _ hilen] at hri
    have hri2 : 0 < counts[i] * d % counts.sum := by
      simpa [remsOf] using hri
    have hT : 0 < counts.sum := by
      rcases Nat.eq_zero_or_pos counts.sum with h0 | h0
      · exfalso
        have hci : counts[i] = 0 := by
          have hle := List.single_le_sum (fun b _ => Nat.zero_le b) counts[i]
            (List.getElem_mem h₂)
          omega
        rw [hci] at hri2
        simp at hri2
      · exact h0
    have hdm := Nat.div_add_mod (counts[i] * d) counts.sum
    have hle : counts[i] * d ≤ counts[i] * counts.sum := Nat.mul_le_mul_left _ hd
    have hcomm : counts[i] * counts.sum = counts.sum * counts[i] := Nat.mul_comm _ _
    simp only [if_pos hin]
    by_contra hcon
    push_neg at hcon
    have hflc : counts[i] ≤ counts[i] * d / counts.sum := by omega
    have hmul : counts.sum * counts[i] ≤ counts.sum * (counts[i] * d / counts.sum) :=
      Nat.mul_le_mul_left _ hflc
    omega
  · simp only [if_neg hin]
    have hle : counts[i] * d ≤ counts[i] * counts.sum := Nat.mul_le_mul_left _ hd
    have h1 : counts[i] * d / counts.sum ≤ counts[i] * counts.sum / counts.sum :=
      Nat.div_le_div_right hle
    rcases Nat.eq_zero_or_pos counts.sum with h0 | h0
    · have hci : counts[i] = 0 := by
        have hle2 := List.single_le_sum (fun b _ => Nat.zero_le b) counts[i]
          (List.getElem_mem h₂)
        omega
      simp [hci]
    · rw [Nat.mul_div_cancel _ h0] at h1
      omega

lemma approxMode_self (counts : List Nat) (d : Nat) (p : List Nat) (h : counts.sum = d) :
    approxMode counts d p = counts := by
  have hfl : flooredOf counts d = counts := by
    unfold flooredOf
    rw [h]
    rcases Nat.eq_zero_or_pos d with hd0 | hdpos
    · subst hd0
      have hz : ∀ c ∈ counts, c * 0 / 0 = id c := by
        intro c hc
        have hc0 : c = 0 := by
          have hle := List.single_le_sum (fun b _ => Nat.zero_le b) c hc
          omega
        simp [hc0]
      rw [List.map_congr_left hz, List.map_id]
    · have hz : ∀ c ∈ counts, c * d / d = id c := fun c _ => Nat.mul_div_cancel c hdpos
      rw [List.map_congr_left hz, List.map_id]
  simp only [approxMode, hfl, h, Nat.sub_self, List.take_zero]
  have hind : (List.range counts.length).map
      (fun i => if i ∈ ([] : List Nat) then 1 else 0) = List.replicate counts.length 0 := by
    simp
  rw [hind, zipWith_add_replicate_zero]


lemma flatten_append_perm {β : Type} (A B : List (List β)) :
    A.length = B.length →
    List.Perm (A.flatten ++ B.flatten) ((List.zipWith (fun a b => a ++ b) A B).flatten) := by
  induction A generalizing B with
  | nil =>
    intro h
    cases B with
    | nil => simp
    | cons b B => simp at h
  | cons a A ih =>
    intro h
    cases B with
    | nil => simp at h
    | cons b B =>
      simp only [List.flatten_cons, List.zipWith_cons_cons]
      have ih2 := ih B (by simpa using h)
      have h2 : List.Perm (A.flatten ++ (b ++ B.flatten)) (b ++ (A.flatten ++ B.flatten)) := by
        rw [← List.append_assoc, ← List.append_assoc]
        exact List.Perm.append_right _ List.perm_append_comm
      rw [List.append_assoc a, List.append_assoc a]
      apply List.Perm.append_left a
      exact h2.trans (List.Perm.append_left b ih2)

lemma flatten_perm_of_forall₂ {β : Type} (A B : List (List β))
    (h : List.Forall₂ (fun a b => List.Perm a b) A B) :
    List.Perm A.flatten B.flatten := by
  induction h with
  | nil => simp
  | cons hab _ ih =>
    simp only [List.flatten_cons]
    exact List.Perm.append hab ih

lemma sum_zipWith_sub (a b : List Nat) (h : List.Forall₂ (fun x y => x ≤ y) b a) :
    (List.zipWith (fun x y => x - y) a b).sum = a.sum - b.sum ∧ b.sum ≤ a.sum := by
  induction h with
  | nil => simp
  | cons hxy htail ih =>
    simp only [List.zipWith_cons_cons, List.sum_cons]
    obtain ⟨ih1, ih2⟩ := ih
    refine ⟨?_, by omega⟩
    rw [ih1]
    omega

lemma flatten_classRows_perm {τ : Type} [DecidableEq τ] (classes : List τ)
    (rows : List (SRow τ)) (hnd : classes.Nodup) (hcov : ∀ x ∈ rows, x.ty ∈ classes) :
    List.Perm ((classes.map (fun c => classRows rows c)).flatten) rows := by
  induction classes generalizing rows with
  | nil =>
    have hnil : rows = [] := by
      cases rows with
      | nil => rfl
      | cons r rest => exact absurd (hcov r (List.mem_cons_self r rest)) (List.not_mem_nil _)
    simp [hnil]
  | cons c cs ih =>
    rw [List.map_cons, List.flatten_cons]
    have hnd' := List.nodup_cons.mp hnd
    have htail : cs.map (fun x => classRows rows x)
        = cs.map (fun x => classRows (rows.filter (fun r => !(decide (r.ty = c)))) x) := by
      apply List.map_congr_left
      intro c' hc'
      have hne : c' ≠ c := fun he => hnd'.1 (he ▸ hc')
      rw [classRows, classRows, List.filter_filter]
      apply List.filter_congr
      intro x _
      by_cases hxc : x.ty = c'
      · simp [hxc, hne]
      · simp [hxc]
    rw [htail]
    have hcov' : ∀ x ∈ rows.filter (fun r => !(decide (r.ty = c))), x.ty ∈ cs := by
      intro x hx
      rw [List.mem_filter] at hx
      have h1 := hcov x hx.1
      have h2 : ¬ x.ty = c := by simpa using hx.2
      rcases List.mem_cons.mp h1 with h | h
      · exact absurd h h2
      · exact h
    have hperm2 := ih (rows.filter (fun r => !(decide (r.ty = c)))) hnd'.2 hcov'
    have hstep := List.Perm.append_left (classRows rows c) hperm2
    apply hstep.trans
    rw [classRows]
    exact List.filter_append_perm _ rows


lemma zipWith_take_drop_flat {β : Type} (S : List (List β)) (N : List Nat)
    (hlen : N.length = S.length) :
    List.zipWith (fun a b => a ++ b)
        (List.zipWith (fun cls n => List.take n cls) S N)
        (List.zipWith (fun cls t => List.take t cls)
          (List.zipWith (fun cls n => List.drop n cls) S N)
          (List.zipWith (fun c n => c - n) (S.map List.length) N))
      = S := by
  induction S generalizing N with
  | nil => simp
  | cons s S ih =>
    cases N with
    | nil => simp at hlen
    | cons n N =>
      simp only [List.map_cons, List.zipWith_cons_cons]
      rw [ih N (by simpa using hlen)]
      have hdt : (s.drop n).take (s.length - n) = s.drop n := by
        rw [← List.length_drop]
        exact List.take_length _
      rw [hdt, List.take_append_drop]

lemma forall₂_shuffle_perm {τ : Type} [DecidableEq τ] (rng : SplitRng τ)
    (hshuf : ∀ l, List.Perm (rng.shuffle l) l) (classes : List τ) (rows : List (SRow τ)) :
    List.Forall₂ (fun a b => List.Perm a b)
      (classes.map (fun c => rng.shuffle (classRows rows c)))
      (classes.map (fun c => classRows rows c)) := by
  induction classes with
  | nil => simp
  | cons c cs ih =>
    simp only [List.map_cons]
    exact List.Forall₂.cons (hshuf _) ih

lemma tts_core_perm {τ : Type} [DecidableEq τ] (rng : SplitRng τ) (hok : SplitRngOK rng)
    (rows : List (SRow τ)) (nTest : Nat) (hn : nTest ≤ rows.length) :
    List.Perm ((tts_core rng rows nTest).1 ++ (tts_core rng rows nTest).2) rows := by
  obtain ⟨hshuf, hprio⟩ := hok
  simp only [tts_core]
  set classes := (rows.map SRow.ty).dedup with hclasses
  set counts := classes.map (fun c => (classRows rows c).length) with hcounts
  set nTrain := rows.length - nTest with hnTrain
  set nI := approxMode counts nTrain (rng.prio (remsOf counts nTrain)) with hnI
  set rem := List.zipWith (fun c n => c - n) counts nI with hrem
  set tI := approxMode rem nTest (rng.prio (remsOf rem nTest)) with htI
  set shuffled := classes.map (fun c => rng.shuffle (classRows rows c)) with hshuffled
  have hclasses_nd : classes.Nodup := List.nodup_dedup _
  have hcov : ∀ x ∈ rows, x.ty ∈ classes := fun x hx =>
    List.mem_dedup.mpr (List.mem_map_of_mem SRow.ty hx)
  have hcr_perm := flatten_classRows_perm classes rows hclasses_nd hcov
  have hcounts_sum : counts.sum = rows.length := by
    have hlen := hcr_perm.length_eq
    rw [List.length_flatten, List.map_map] at hlen
    rw [hcounts]
    exact hlen
  have hd1 : nTrain ≤ counts.sum := by rw [hcounts_sum]; omega
  have hnI_le : List.Forall₂ (fun a b => a ≤ b) nI counts :=
    approxMode_le counts nTrain _ hd1 (hprio _)
  have hnI_sum : nI.sum = nTrain := approxMode_sum counts nTrain _ hd1 (hprio _)
  have hrem_sum : rem.sum = nTest := by
    obtain ⟨h1, h2⟩ := sum_zipWith_sub counts nI hnI_le
    rw [hrem, h1, hnI_sum, hcounts_sum, hnTrain]
    omega
  have htI_eq : tI = rem := by rw [htI, approxMode_self rem nTest _ hrem_sum]
  have hlen_counts : counts.length = classes.length := by rw [hcounts]; simp
  have hlen_nI : nI.length = classes.length := by
    rw [hnI, approxMode_length, hlen_counts]
  have hlen_shuffled : shuffled.length = classes.length := by rw [hshuffled]; simp
  have hcounts_maplen : counts = shuffled.map List.length := by
    rw [hcounts, hshuffled, List.map_map]
    apply List.map_congr_left
    intro c _
    exact ((hshuf (classRows rows c)).length_eq).symm
  have hztw : List.zipWith (fun a b => a ++ b)
      (List.zipWith (fun cls n => List.take n cls) shuffled nI)
      (List.zipWith (fun cls t => List.take t cls)
        (List.zipWith (fun cls n => List.drop n cls) shuffled nI) tI)
      = shuffled := by
    rw [htI_eq, hrem, hcounts_maplen]
    exact zipWith_take_drop_flat shuffled nI (by omega)
  have hlen_rem : rem.length = classes.length := by
    rw [hrem, List.length_zipWith]
    omega
  have hlen_tI : tI.length = classes.length := by rw [htI_eq, hlen_rem]
  have hforall := forall₂_shuffle_perm rng hshuf classes rows
  have hperm1 : List.Perm
      ((List.zipWith (fun cls n => List.take n cls) shuffled nI).flatten
        ++ (List.zipWith (fun cls t => List.take t cls)
            (List.zipWith (fun cls n => List.drop n cls) shuffled nI) tI).flatten)
      shuffled.flatten := by
    have hfa := flatten_append_perm
      (List.zipWith (fun cls n => List.take n cls) shuffled nI)
      (List.zipWith (fun cls t => List.take t cls)
        (List.zipWith (fun cls n => List.drop n cls) shuffled nI) tI)
      (by
        rw [List.length_zipWith, List.length_zipWith, List.length_zipWith]
        omega)
    rw [hztw] at hfa
    exact hfa
  have hperm2 : List.Perm shuffled.flatten
      ((classes.map (fun c => classRows rows c)).flatten) := by
    rw [hshuffled]
    exact flatten_perm_of_forall₂ _ _ hforall
  exact ((List.Perm.append (hshuf _) (hshuf _)).trans
    (hperm1.trans (hperm2.trans hcr_perm)))
lemma countP_range_getD (r : List Nat) (p : Nat → Bool) :
    (List.range r.length).countP (fun i => p (r.getD i 0)) = r.countP p := by
  induction r with
  | nil => simp
  | cons a r ih =>
    rw [List.length_cons, List.range_succ_eq_map, List.countP_cons, List.countP_map]
    have hcomp : ((fun i => p ((a :: r).getD i 0)) ∘ (· + 1)) = (fun i => p (r.getD i 0)) := by
      funext i
      simp [List.getD_cons_succ]
    rw [hcomp, ih, List.countP_cons]
    simp [List.getD_cons_zero]

/-- A concrete `PrioValid` priority order: positive-remainder classes
first. -/
def posPrio (r : List Nat) : List Nat :=
  (List.range r.length).filter (fun i => decide (0 < r.getD i 0))
    ++ (List.range r.length).filter (fun i => !(decide (0 < r.getD i 0)))

lemma posPrio_valid (r : List Nat) : PrioValid r (posPrio r) := by
  constructor
  · exact List.filter_append_perm _ _
  · intro i hi
    have hblen : ((List.range r.length).filter (fun j => decide (0 < r.getD j 0))).length
        = r.countP (fun x => decide (0 < x)) := by
      rw [← List.countP_eq_length_filter]
      exact countP_range_getD r (fun x => decide (0 < x))
    rw [posPrio, ← hblen, List.take_left] at hi
    have := List.mem_filter.mp hi
    simpa using this.2

lemma natCeil_mul_le (q : ℚ) (n : Nat) (h0 : 0 ≤ q) (h1 : q ≤ 1) :
    natCeil (q * n) ≤ n := by
  unfold natCeil
  have hle : q * (n : ℚ) ≤ (n : ℚ) := by
    calc q * (n : ℚ) ≤ 1 * (n : ℚ) :=
          mul_le_mul_of_nonneg_right h1 (by positivity)
      _ = (n : ℚ) := one_mul _
  have hceil : (⌈q * (n : ℚ)⌉ : ℤ) ≤ ⌈((n : ℚ))⌉ := Int.ceil_le_ceil hle
  rw [Int.ceil_natCast] at hceil
  omega

theorem stratified_split_partition {τ : Type} [DecidableEq τ] (ambient : SplitRng τ)
    (seeded : Nat → SplitRng τ) (seed : Nat) (hok : SplitRngOK (seeded seed))
    (trS vaS teS : ℚ) (htr : 0 ≤ trS) (hva : 0 ≤ vaS) (hte : 0 ≤ teS)
    (hsum : trS + vaS + teS = 1) (df : List (SRow τ)) :
    List.Perm ((stratified_split ambient seeded trS vaS teS seed df).1
      ++ (stratified_split ambient seeded trS vaS teS seed df).2.1
      ++ (stratified_split ambient seeded trS vaS teS seed df).2.2) df := by
  simp only [stratified_split, train_test_split_model]
  have hte1 : teS ≤ 1 := by linarith
  have hn1 : natCeil (teS * df.length) ≤ df.length := natCeil_mul_le teS df.length hte hte1
  have hp1 := tts_core_perm (seeded seed) hok df (natCeil (teS * df.length)) hn1
  have hratio0 : 0 ≤ vaS / (trS + vaS) := by positivity
  have hratio1 : vaS / (trS + vaS) ≤ 1 := by
    rcases eq_or_lt_of_le (show (0 : ℚ) ≤ trS + vaS by linarith) with h | h
    · rw [← h]
      simp
    · rw [div_le_one h]
      linarith
  have hn2 : natCeil (vaS / (trS + vaS)
        * (tts_core (seeded seed) df (natCeil (teS * df.length))).1.length)
      ≤ (tts_core (seeded seed) df (natCeil (teS * df.length))).1.length :=
    natCeil_mul_le _ _ hratio0 hratio1
  have hp2 := tts_core_perm (seeded seed) hok
    (tts_core (seeded seed) df (natCeil (teS * df.length))).1 _ hn2
  exact (List.Perm.append_right _ hp2).trans hp1
/-- The spec's example input: 500 rows with 5 tag types evenly
distributed (types encoded as `0..4`). -/
def evenDf : List (SRow Nat) := (List.range 500).map (fun i => ⟨i, i % 5⟩)

/-- A concrete valid random stream (identity shuffles). -/
def idRng : SplitRng Nat := ⟨id, posPrio⟩

lemma idRng_ok : SplitRngOK idRng :=
  ⟨fun l => List.Perm.refl l, posPrio_valid⟩

set_option maxRecDepth 1000000 in
lemma concrete_split_eval :
    (stratified_split idRng (fun _ => idRng) (7/10) (3/20) (3/20) 42 evenDf).1.length = 350
    ∧ (stratified_split idRng (fun _ => idRng) (7/10) (3/20) (3/20) 42 evenDf).2.1.length = 75
    ∧ (stratified_split idRng (fun _ => idRng) (7/10) (3/20) (3/20) 42 evenDf).2.2.length
        = 75 := by
  have e0 : evenDf.length = 500 := by simp [evenDf]
  have hc1 : natCeil ((3/20 : ℚ) * (evenDf.length : ℚ)) = 75 := by
    rw [e0]
    have hv : (3/20 : ℚ) * ((500 : Nat) : ℚ) = ((75 : ℤ) : ℚ) := by
      push_cast
      norm_num
    rw [natCeil, hv, Int.ceil_intCast]
    rfl
  have htv : (tts_core idRng evenDf 75).1.length = 425 := by decide
  have hc2 : natCeil ((3/20 : ℚ) / (7/10 + 3/20)
      * ((tts_core idRng evenDf 75).1.length : ℚ)) = 75 := by
    rw [htv]
    have hv : (3/20 : ℚ) / (7/10 + 3/20) * ((425 : Nat) : ℚ) = ((75 : ℤ) : ℚ) := by
      push_cast
      norm_num
    rw [natCeil, hv, Int.ceil_intCast]
    rfl
  simp only [stratified_split, train_test_split_model]
  rw [hc1, hc2]
  refine ⟨by decide, by decide, by decide⟩
/-- C2: for every input DataFrame and ratios `(train, val, test)` that
are nonnegative and sum to 1, the three partitions of
`DataPreprocessor.stratified_split` together are a permutation of the
input, their row counts sum to the input row count, and (for a DataFrame
with no duplicate rows) they are pairwise disjoint; moreover on the
spec's example — 500 rows, 5 evenly distributed tag types, ratios
0.7/0.15/0.15, seed 42 — the train/val/test partitions have exactly
350/75/75 rows. -/
theorem stratified_split_partition_sizes {τ : Type} [DecidableEq τ] (ambient : SplitRng τ)
    (seeded : Nat → SplitRng τ) (seed : Nat) (hok : SplitRngOK (seeded seed))
    (trS vaS teS : ℚ) (htr : 0 ≤ trS) (hva : 0 ≤ vaS) (hte : 0 ≤ teS)
    (hsum : trS + vaS + teS = 1) (df : List (SRow τ)) :
    List.Perm ((stratified_split ambient seeded trS vaS teS seed df).1
      ++ (stratified_split ambient seeded trS vaS teS seed df).2.1
      ++ (stratified_split ambient seeded trS vaS teS seed df).2.2) df
    ∧ (stratified_split ambient seeded trS vaS teS seed df).1.length
        + (stratified_split ambient seeded trS vaS teS seed df).2.1.length
        + (stratified_split ambient seeded trS vaS teS seed df).2.2.length = df.length
    ∧ (df.Nodup →
        (stratified_split ambient seeded trS vaS teS seed df).1.Disjoint
          (stratified_split ambient seeded trS vaS teS seed df).2.1
        ∧ (stratified_split ambient seeded trS vaS teS seed df).1.Disjoint
            (stratified_split ambient seeded trS vaS teS seed df).2.2
        ∧ (stratified_split ambient seeded trS vaS teS seed df).2.1.Disjoint
            (stratified_split ambient seeded trS vaS teS seed df).2.2)
    ∧ ((stratified_split idRng (fun _ => idRng) (7/10) (3/20) (3/20) 42 evenDf).1.length = 350
        ∧ (stratified_split idRng (fun _ => idRng) (7/10) (3/20) (3/20) 42 evenDf).2.1.length = 75
        ∧ (stratified_split idRng (fun _ => idRng) (7/10) (3/20) (3/20) 42 evenDf).2.2.length
            = 75) := by
  have hperm := stratified_split_partition ambient seeded seed hok trS vaS teS htr hva hte hsum df
  refine ⟨hperm, ?_, ?_, concrete_split_eval⟩
  · have hlen := hperm.length_eq
    simp only [List.length_append] at hlen
    omega
  · intro hnd
    have hnd2 := hperm.nodup_iff.mpr hnd
    rcases List.nodup_append.mp hnd2 with ⟨hnd_trva, _, hdisj1⟩
    rcases List.nodup_append.mp hnd_trva with ⟨_, _, hdisj2⟩
    rcases List.disjoint_append_left.mp hdisj1 with ⟨hdj_tr_te, hdj_va_te⟩
    exact ⟨hdisj2, hdj_tr_te, hdj_va_te⟩
/-- Witness for C2: the theorem applied to the 500-row example itself,
with the identity-shuffle random stream. -/
theorem stratified_split_partition_sizes_witness :
    List.Perm ((stratified_split idRng (fun _ => idRng) (7/10) (3/20) (3/20) 42 evenDf).1
      ++ (stratified_split idRng (fun _ => idRng) (7/10) (3/20) (3/20) 42 evenDf).2.1
      ++ (stratified_split idRng (fun _ => idRng) (7/10) (3/20) (3/20) 42 evenDf).2.2) evenDf
    ∧ (stratified_split idRng (fun _ => idRng) (7/10) (3/20) (3/20) 42 evenDf).1.length
        + (stratified_split idRng (fun _ => idRng) (7/10) (3/20) (3/20) 42 evenDf).2.1.length
        + (stratified_split idRng (fun _ => idRng) (7/10) (3/20) (3/20) 42 evenDf).2.2.length
        = evenDf.length
    ∧ (evenDf.Nodup →
        (stratified_split idRng (fun _ => idRng) (7/10) (3/20) (3/20) 42 evenDf).1.Disjoint
          (stratified_split idRng (fun _ => idRng) (7/10) (3/20) (3/20) 42 evenDf).2.1
        ∧ (stratified_split idRng (fun _ => idRng) (7/10) (3/20) (3/20) 42 evenDf).1.Disjoint
            (stratified_split idRng (fun _ => idRng) (7/10) (3/20) (3/20) 42 evenDf).2.2
        ∧ (stratified_split idRng (fun _ => idRng) (7/10) (3/20) (3/20) 42 evenDf).2.1.Disjoint
            (stratified_split idRng (fun _ => idRng) (7/10) (3/20) (3/20) 42 evenDf).2.2)
    ∧ ((stratified_split idRng (fun _ => idRng) (7/10) (3/20) (3/20) 42 evenDf).1.length = 350
        ∧ (stratified_split idRng (fun _ => idRng) (7/10) (3/20) (3/20) 42 evenDf).2.1.length = 75
        ∧ (stratified_split idRng (fun _ => idRng) (7/10) (3/20) (3/20) 42 evenDf).2.2.length
            = 75) :=
  stratified_split_partition_sizes idRng (fun _ => idRng) 42 idRng_ok
    (7/10) (3/20) (3/20) (by norm_num) (by norm_num) (by norm_num) (by norm_num) evenDf

end AccessAtlas
